import Mathlib

/-!
Verification of the shellshock-trainer core (src/math.rs, src/main.rs).

The Rust code computes with `f64`. The embedding below uses exact rationals
(`ℚ`) for all real-valued quantities. Floating-point trigonometry
(`f64::cos`/`f64::sin`, whose exact values are platform libm dependent) is
abstracted: the trajectory simulator takes the cosine and sine of the launch
angle as parameters, and the two search procedures take the per-query hit
oracle `sim : ℚ → ℚ → Bool` (which in the source is
`simulate_trajectory(velocity, angle, target_x_px, target_y_px, wind)` at the
fixed target displacement and wind of the query) as a parameter. All
structural theorems about the searches are proved for every oracle, hence in
particular for the one realised by the source's simulator.
-/

namespace ShellShock

/-- `Hit` from src/math.rs: a solution, `velocity : u32` (modelled as `ℕ`)
paired with `angle : i32` (modelled as `ℤ`). -/
structure Hit where
  velocity : ℕ
  angle : ℤ
deriving DecidableEq

/-- Rust `f64::round`: rounds to the nearest integer, halves away from zero. -/
def rustRound (x : ℚ) : ℤ :=
  if x < 0 then -⌊-x + 1 / 2⌋ else ⌊x + 1 / 2⌋

/-- Rust `f64 as u32` applied to a rounded value `≥ 0` (saturating at 0). -/
def roundToU32 (x : ℚ) : ℕ :=
  (rustRound x).toNat

/-- The velocity sweep of `calc_launch_velocities_with_wind`
(src/math.rs lines 207-225): `v_mps` starts at `1.0` and is incremented by
`0.1` while `v_mps <= 100.0`; over exact arithmetic the loop visits exactly
the 991 values `1 + k/10`, `k = 0, …, 990`. -/
def velSweep : List ℚ :=
  (List.range 991).map (fun k : ℕ => 1 + (k : ℚ) / 10)

/-- The angle sweep of `calc_launch_angles_with_wind`
(src/math.rs lines 183-192): `angle_deg` starts at `-90.0` and is incremented
by `0.5` while `angle_deg <= 90.0`; over exact arithmetic the loop visits
exactly the 361 values `-90 + k/2`, `k = 0, …, 360`. -/
def angleSweep : List ℚ :=
  (List.range 361).map (fun k : ℕ => -90 + (k : ℚ) / 2)

/-- The outer angle loop of `calc_launch_velocities_with_wind`:
`for angle_deg in -90..=90`. -/
def angleRange : List ℤ :=
  (List.range 181).map (fun k : ℕ => (k : ℤ) - 90)

/-- The guarded push of `calc_launch_velocities_with_wind`
(src/math.rs line 218): the new hit is appended only if the last recorded hit
does not already have the same angle and the same rounded velocity. -/
def pushHit (hits : List Hit) (h : Hit) : List Hit :=
  if hits.getLast?.all
      (fun last => decide (last.angle ≠ h.angle) || decide (last.velocity ≠ h.velocity)) then
    hits ++ [h]
  else
    hits

/-- One iteration of the inner velocity loop of
`calc_launch_velocities_with_wind` (src/math.rs lines 209-222): simulate, round
the velocity, range-check it, and push with adjacent deduplication. -/
def velStep (sim : ℚ → ℚ → Bool) (a : ℤ) (hits : List Hit) (v : ℚ) : List Hit :=
  if sim v (a : ℚ) then
    if 1 ≤ roundToU32 v ∧ roundToU32 v ≤ 100 then pushHit hits ⟨roundToU32 v, a⟩ else hits
  else
    hits

/-- Final comparison of `calc_launch_velocities_with_wind` (src/math.rs
line 228): ascending by velocity, ties broken by ascending angle. -/
def leVelAngle (h₁ h₂ : Hit) : Bool :=
  decide (h₁.velocity < h₂.velocity) ||
    (decide (h₁.velocity = h₂.velocity) && decide (h₁.angle ≤ h₂.angle))

/-- Final comparison of `calc_launch_angles_with_wind` (src/math.rs line 195)
and of `print_hits` (src/main.rs lines 241-244): ascending by angle, ties
broken by ascending velocity. -/
def leAngleVel (h₁ h₂ : Hit) : Bool :=
  decide (h₁.angle < h₂.angle) ||
    (decide (h₁.angle = h₂.angle) && decide (h₁.velocity ≤ h₂.velocity))

/-- `calc_launch_velocities_with_wind` (src/math.rs lines 202-230),
parametrised by the hit oracle `sim` (in the source,
`simulate_trajectory(v_mps, angle_deg, target_x_px, target_y_px, wind)`). -/
def calc_launch_velocities_with_wind (sim : ℚ → ℚ → Bool) : List Hit :=
  (angleRange.foldl (fun hits a => velSweep.foldl (velStep sim a) hits) []).mergeSort
    leVelAngle

/-- One iteration of the inner angle loop of `calc_launch_angles_with_wind`
(src/math.rs lines 185-191): on a simulated hit, record the velocity with the
rounded angle; no deduplication. -/
def angleStep (sim : ℚ → ℚ → Bool) (v : ℕ) (hits : List Hit) (a : ℚ) : List Hit :=
  if sim (v : ℚ) a then hits ++ [⟨v, rustRound a⟩] else hits

/-- `calc_launch_angles_with_wind` (src/math.rs lines 178-197), parametrised
by the hit oracle `sim`. The outer loop is `for v in 1..=100`. -/
def calc_launch_angles_with_wind (sim : ℚ → ℚ → Bool) : List Hit :=
  ((List.range' 1 100).foldl (fun hits v => angleSweep.foldl (angleStep sim v) hits) []).mergeSort
    leAngleVel

/-- Elements of a left fold either were in the accumulator or satisfy any
property that every step's new elements satisfy. -/
theorem mem_foldl_of_step {β : Type} (f : List Hit → β → List Hit) (P : Hit → Prop) :
    ∀ (l : List β), (∀ acc b, b ∈ l → ∀ h, h ∈ f acc b → h ∈ acc ∨ P h) →
      ∀ (acc : List Hit) (h : Hit), h ∈ l.foldl f acc → h ∈ acc ∨ P h := by
  intro l
  induction l with
  | nil => intro _ acc h hm; exact Or.inl hm
  | cons b l ih =>
    intro hf acc h hm
    rcases ih (fun acc' b' hb' => hf acc' b' (List.mem_cons_of_mem _ hb')) (f acc b) h hm with
      hm' | hp
    · exact hf acc b (List.mem_cons_self _ _) h hm'
    · exact Or.inr hp

theorem mem_pushHit {hits : List Hit} {x h : Hit} (hm : h ∈ pushHit hits x) :
    h ∈ hits ∨ h = x := by
  unfold pushHit at hm
  split at hm
  · rcases List.mem_append.mp hm with h1 | h2
    · exact Or.inl h1
    · exact Or.inr (List.mem_singleton.mp h2)
  · exact Or.inl hm

theorem rustRound_nonneg {x : ℚ} (hx : 0 ≤ x) : 0 ≤ rustRound x := by
  unfold rustRound
  rw [if_neg (not_lt.mpr hx)]
  have : (0 : ℚ) ≤ x + 1 / 2 := by linarith
  exact_mod_cast Int.le_floor.mpr (by exact_mod_cast this)

theorem rustRound_le {x : ℚ} {n : ℤ} (hx : x ≤ n) : rustRound x ≤ n := by
  unfold rustRound
  split
  · have h1 : -n ≤ ⌊-x + 1 / 2⌋ := Int.le_floor.mpr (by push_cast; linarith)
    omega
  · have h1 : ⌊x + 1 / 2⌋ < n + 1 := Int.floor_lt.mpr (by push_cast; linarith)
    omega

theorem rustRound_ge {x : ℚ} {n : ℤ} (hx : (n : ℚ) ≤ x) : n ≤ rustRound x := by
  unfold rustRound
  split
  · have h1 : ⌊-x + 1 / 2⌋ < -n + 1 := Int.floor_lt.mpr (by push_cast; linarith)
    omega
  · have h1 : n ≤ ⌊x + 1 / 2⌋ := Int.le_floor.mpr (by linarith)
    omega

theorem mem_angleSweep {a : ℚ} (ha : a ∈ angleSweep) : -90 ≤ a ∧ a ≤ 90 := by
  unfold angleSweep at ha
  rcases List.mem_map.mp ha with ⟨k, hk, rfl⟩
  have hk' := List.mem_range.mp hk
  have hk360 : (k : ℚ) ≤ 360 := by exact_mod_cast (by omega : k ≤ 360)
  have hk0 : (0 : ℚ) ≤ (k : ℚ) := by positivity
  constructor <;> [linarith; linarith]

theorem mem_velSweep {v : ℚ} (hv : v ∈ velSweep) : 1 ≤ v ∧ v ≤ 100 := by
  unfold velSweep at hv
  rcases List.mem_map.mp hv with ⟨k, hk, rfl⟩
  have hk' := List.mem_range.mp hk
  have hk990 : (k : ℚ) ≤ 990 := by exact_mod_cast (by omega : k ≤ 990)
  have hk0 : (0 : ℚ) ≤ (k : ℚ) := by positivity
  constructor <;> [linarith; linarith]

theorem mem_angleRange {a : ℤ} (ha : a ∈ angleRange) : -90 ≤ a ∧ a ≤ 90 := by
  unfold angleRange at ha
  rcases List.mem_map.mp ha with ⟨k, hk, rfl⟩
  have hk' := List.mem_range.mp hk
  omega

/-- Any hit produced by the inner velocity loop either was already present or
has the loop's angle and a guarded velocity in `[1, 100]`. -/
theorem velStep_mem (sim : ℚ → ℚ → Bool) (a : ℤ) (acc : List Hit) (v : ℚ) (h : Hit)
    (hm : h ∈ velStep sim a acc v) :
    h ∈ acc ∨ (h.angle = a ∧ 1 ≤ h.velocity ∧ h.velocity ≤ 100) := by
  unfold velStep at hm
  split at hm
  · split at hm
    · rename_i hrange
      rcases mem_pushHit hm with h1 | h2
      · exact Or.inl h1
      · subst h2; exact Or.inr ⟨rfl, hrange.1, hrange.2⟩
    · exact Or.inl hm
  · exact Or.inl hm

/-- Any hit produced by the inner angle loop either was already present or
has the loop's velocity and an angle that is the rounding of a swept angle. -/
theorem angleStep_mem (sim : ℚ → ℚ → Bool) (v : ℕ) (acc : List Hit) (a : ℚ) (h : Hit)
    (hm : h ∈ angleStep sim v acc a) :
    h ∈ acc ∨ (h.velocity = v ∧ h.angle = rustRound a) := by
  unfold angleStep at hm
  split at hm
  · rcases List.mem_append.mp hm with h1 | h2
    · exact Or.inl h1
    · have he := List.mem_singleton.mp h2
      subst he
      exact Or.inr ⟨rfl, rfl⟩
  · exact Or.inl hm

theorem mem_calc_velocities (sim : ℚ → ℚ → Bool) (h : Hit)
    (hm : h ∈ calc_launch_velocities_with_wind sim) :
    (1 ≤ h.velocity ∧ h.velocity ≤ 100) ∧ (-90 ≤ h.angle ∧ h.angle ≤ 90) := by
  unfold calc_launch_velocities_with_wind at hm
  rw [(List.mergeSort_perm _ leVelAngle).mem_iff] at hm
  have key := mem_foldl_of_step
    (fun hits a => velSweep.foldl (velStep sim a) hits)
    (fun h => (1 ≤ h.velocity ∧ h.velocity ≤ 100) ∧ (-90 ≤ h.angle ∧ h.angle ≤ 90))
    angleRange
    (fun acc a ha h hma => by
      have hstep := mem_foldl_of_step (velStep sim a)
        (fun h => (1 ≤ h.velocity ∧ h.velocity ≤ 100) ∧ h.angle = a)
        velSweep
        (fun acc' v _ h hm' => by
          rcases velStep_mem sim a acc' v h hm' with h1 | h2
          · exact Or.inl h1
          · exact Or.inr ⟨⟨h2.2.1, h2.2.2⟩, h2.1⟩)
        acc h hma
      rcases hstep with h1 | h2
      · exact Or.inl h1
      · refine Or.inr ⟨h2.1, ?_⟩
        rw [h2.2]
        exact mem_angleRange ha)
    [] h hm
  rcases key with h1 | h2
  · simp at h1
  · exact h2

theorem mem_calc_angles (sim : ℚ → ℚ → Bool) (h : Hit)
    (hm : h ∈ calc_launch_angles_with_wind sim) :
    (1 ≤ h.velocity ∧ h.velocity ≤ 100) ∧ (-90 ≤ h.angle ∧ h.angle ≤ 90) := by
  unfold calc_launch_angles_with_wind at hm
  rw [(List.mergeSort_perm _ leAngleVel).mem_iff] at hm
  have key := mem_foldl_of_step
    (fun hits v => angleSweep.foldl (angleStep sim v) hits)
    (fun h => (1 ≤ h.velocity ∧ h.velocity ≤ 100) ∧ (-90 ≤ h.angle ∧ h.angle ≤ 90))
    (List.range' 1 100)
    (fun acc v hv h hmv => by
      have hstep := mem_foldl_of_step (angleStep sim v)
        (fun h => h.velocity = v ∧ (-90 ≤ h.angle ∧ h.angle ≤ 90))
        angleSweep
        (fun acc' a ha h hm' => by
          rcases angleStep_mem sim v acc' a h hm' with h1 | h2
          · exact Or.inl h1
          · refine Or.inr ⟨h2.1, ?_⟩
            rw [h2.2]
            rcases mem_angleSweep ha with ⟨hlo, hhi⟩
            exact ⟨rustRound_ge (by exact_mod_cast hlo), rustRound_le (by exact_mod_cast hhi)⟩)
        acc h hmv
      rcases hstep with h1 | h2
      · exact Or.inl h1
      · refine Or.inr ⟨?_, h2.2⟩
        rw [h2.1]
        have := List.mem_range'_1.mp hv
        omega)
    [] h hm
  rcases key with h1 | h2
  · simp at h1
  · exact h2

/-- C3: every Solution emitted by the velocity-enumeration search has velocity
in [1, 100] and every Solution emitted by the angle-enumeration search has
(rounded) angle in [-90, 90]; moreover in both searches both stored components
lie within the ranges swept by the search. Proved for every hit oracle, hence
in particular for the source's simulator at every (dx, dy, wind). -/
theorem solutions_within_search_ranges (sim : ℚ → ℚ → Bool) :
    List.Forall
      (fun h : Hit => (1 ≤ h.velocity ∧ h.velocity ≤ 100) ∧ -90 ≤ h.angle ∧ h.angle ≤ 90)
      (calc_launch_velocities_with_wind sim) ∧
    List.Forall
      (fun h : Hit => (1 ≤ h.velocity ∧ h.velocity ≤ 100) ∧ -90 ≤ h.angle ∧ h.angle ≤ 90)
      (calc_launch_angles_with_wind sim) := by
  constructor
  · exact List.forall_iff_forall_mem.mpr (fun h hm => mem_calc_velocities sim h hm)
  · exact List.forall_iff_forall_mem.mpr (fun h hm => mem_calc_angles sim h hm)

theorem rustRound_mono {x y : ℚ} (hxy : x ≤ y) : rustRound x ≤ rustRound y := by
  by_cases hx : x < 0 <;> by_cases hy : y < 0 <;> simp only [rustRound, hx, hy, if_pos, if_neg,
    if_true, if_false, reduceIte]
  · have : ⌊-y + 1 / 2⌋ ≤ ⌊-x + 1 / 2⌋ := Int.floor_le_floor (by linarith)
    omega
  · have h1 : (0 : ℤ) ≤ ⌊-x + 1 / 2⌋ := Int.le_floor.mpr (by push_cast; linarith)
    have h2 : (0 : ℤ) ≤ ⌊y + 1 / 2⌋ := Int.le_floor.mpr (by push_cast; linarith)
    omega
  · linarith
  · exact Int.floor_le_floor (by linarith)

theorem roundToU32_mono {x y : ℚ} (hxy : x ≤ y) : roundToU32 x ≤ roundToU32 y :=
  Int.toNat_le_toNat (rustRound_mono hxy)

theorem velSweep_sorted : velSweep.Pairwise (· ≤ ·) := by
  unfold velSweep
  refine List.pairwise_map.mpr ((List.pairwise_lt_range 991).imp ?_)
  intro i j hij
  have : (i : ℚ) ≤ (j : ℚ) := by exact_mod_cast le_of_lt hij
  linarith

theorem angleRange_sorted : angleRange.Pairwise (· < ·) := by
  unfold angleRange
  refine List.pairwise_map.mpr ((List.pairwise_lt_range 181).imp ?_)
  intro i j hij
  omega

theorem hit_eq_of_fields {x y : Hit} (ha : x.angle = y.angle) (hv : x.velocity = y.velocity) :
    x = y := by
  cases x
  cases y
  simp_all

theorem mem_of_getLastEq {α : Type} : ∀ {l : List α} {a : α}, l.getLast? = some a → a ∈ l := by
  intro l
  induction l with
  | nil => intro a h; simp at h
  | cons b l ih =>
    intro a h
    cases l with
    | nil =>
      simp only [List.getLast?_singleton, Option.some.injEq] at h
      simp [h]
    | cons c l' =>
      rw [List.getLast?_cons_cons] at h
      exact List.mem_cons_of_mem _ (ih h)

/-- The invariant maintained by the inner velocity loop at angle `a`: the
accumulated hits are pairwise distinct, and every hit recorded at angle `a`
has rounded velocity at most `m`, with a hit of rounded velocity exactly `m`
possible only as the very last recorded hit. -/
def InnerInv (a : ℤ) (m : ℕ) (hits : List Hit) : Prop :=
  hits.Nodup ∧
    ∀ h ∈ hits, h.angle ≠ a ∨
      (h.velocity ≤ m ∧ (h.velocity = m → hits.getLast? = some h))

theorem InnerInv.mono {a : ℤ} {m m' : ℕ} {hits : List Hit} (hI : InnerInv a m hits)
    (hm : m ≤ m') : InnerInv a m' hits := by
  refine ⟨hI.1, fun h hmem => ?_⟩
  rcases hI.2 h hmem with hne | ⟨hv, hlast⟩
  · exact Or.inl hne
  · exact Or.inr ⟨le_trans hv hm, fun he => hlast (by omega)⟩

theorem innerInv_push {a : ℤ} {m rv : ℕ} {acc : List Hit} (hmle : m ≤ rv)
    (hI : InnerInv a m acc) : InnerInv a rv (pushHit acc ⟨rv, a⟩) := by
  unfold pushHit
  split
  · rename_i hguard
    have hx : (⟨rv, a⟩ : Hit) ∉ acc := by
      intro hmem
      rcases hI.2 _ hmem with hne | ⟨hv, hlast⟩
      · exact hne rfl
      · have hm : m = rv := le_antisymm hmle hv
        have hlast' := hlast hm.symm
        rw [hlast'] at hguard
        simp at hguard
    refine ⟨?_, ?_⟩
    · exact List.nodup_append.mpr ⟨hI.1, List.nodup_singleton _,
        fun b hb hb' => hx (by rwa [List.mem_singleton.mp hb'] at hb)⟩
    · intro h hmem
      rcases List.mem_append.mp hmem with hmem' | hmem'
      · by_cases hangle : h.angle = a
        · refine Or.inr ⟨?_, ?_⟩
          · rcases hI.2 h hmem' with hne | ⟨hv, _⟩
            · exact absurd hangle hne
            · exact le_trans hv hmle
          · intro he
            rcases hI.2 h hmem' with hne | ⟨hv, hlast⟩
            · exact absurd hangle hne
            · have hm : m = rv := le_antisymm hmle (he ▸ hv)
              have hlast' := hlast (by omega)
              rw [hlast'] at hguard
              simp only [Option.all_some] at hguard
              rw [hangle, he] at hguard
              simp at hguard
        · exact Or.inl hangle
      · have he := List.mem_singleton.mp hmem'
        subst he
        exact Or.inr ⟨le_refl _, fun _ => List.getLast?_concat _⟩
  · exact hI.mono hmle

theorem velStep_inv (sim : ℚ → ℚ → Bool) {a : ℤ} {m : ℕ} {acc : List Hit} (v : ℚ)
    (hmle : m ≤ roundToU32 v) (hI : InnerInv a m acc) :
    InnerInv a (roundToU32 v) (velStep sim a acc v) := by
  unfold velStep
  split
  · split
    · exact innerInv_push hmle hI
    · exact hI.mono hmle
  · exact hI.mono hmle

theorem velFold_inv (sim : ℚ → ℚ → Bool) (a : ℤ) :
    ∀ (vs : List ℚ) (acc : List Hit) (m : ℕ), vs.Pairwise (· ≤ ·) →
      (∀ v ∈ vs, m ≤ roundToU32 v) → InnerInv a m acc →
      ∃ m', InnerInv a m' (vs.foldl (velStep sim a) acc) := by
  intro vs
  induction vs with
  | nil => intro acc m _ _ hI; exact ⟨m, hI⟩
  | cons v vs ih =>
    intro acc m hsorted hlow hI
    have hmv : m ≤ roundToU32 v := hlow v (List.mem_cons_self _ _)
    have hI' := velStep_inv sim v hmv hI
    refine ih (velStep sim a acc v) (roundToU32 v) (List.Pairwise.of_cons hsorted) ?_ hI'
    intro w hw
    exact roundToU32_mono ((List.pairwise_cons.mp hsorted).1 w hw)

set_option maxRecDepth 4000 in
theorem velOuter_nodup (sim : ℚ → ℚ → Bool) :
    ∀ (as : List ℤ) (acc : List Hit), as.Pairwise (· < ·) → acc.Nodup →
      (∀ h ∈ acc, ∀ a ∈ as, h.angle ≠ a) →
      (as.foldl (fun hits a => velSweep.foldl (velStep sim a) hits) acc).Nodup := by
  intro as
  induction as with
  | nil => intro acc _ hnd _; exact hnd
  | cons a as ih =>
    intro acc hsorted hnd hdisj
    have hI : InnerInv a 0 acc := by
      refine ⟨hnd, fun h hmem => Or.inl ?_⟩
      exact hdisj h hmem a (List.mem_cons_self _ _)
    obtain ⟨m', hI'⟩ := velFold_inv sim a velSweep acc 0 velSweep_sorted
      (fun v _ => Nat.zero_le _) hI
    refine ih (velSweep.foldl (velStep sim a) acc) (List.Pairwise.of_cons hsorted) hI'.1 ?_
    intro h hmem a' ha'
    have hmem' := mem_foldl_of_step (velStep sim a)
      (fun h => h.angle = a) velSweep
      (fun acc' v _ h hm' => (velStep_mem sim a acc' v h hm').imp id And.left)
      acc h hmem
    rcases hmem' with hold | hnew
    · exact hdisj h hold a' (List.mem_cons_of_mem _ ha')
    · rw [hnew]
      have := (List.pairwise_cons.mp hsorted).1 a' ha'
      omega

/-- C2: for every hit oracle (hence for every (dx, dy, wind) input), the final
sorted output of the velocity-enumeration search never contains two adjacent
Solutions sharing both the same angle and the same rounded velocity. In fact
the output contains no two equal (velocity, angle) pairs at all, which gives
the adjacent-pair property in the final output order. -/
theorem velocity_search_no_adjacent_duplicates (sim : ℚ → ℚ → Bool) :
    List.Chain' (fun x y : Hit => ¬(x.angle = y.angle ∧ x.velocity = y.velocity))
      (calc_launch_velocities_with_wind sim) := by
  have hnd : (angleRange.foldl (fun hits a => velSweep.foldl (velStep sim a) hits) []).Nodup :=
    velOuter_nodup sim angleRange [] angleRange_sorted List.nodup_nil (by simp)
  have hnd' : (calc_launch_velocities_with_wind sim).Nodup := by
    unfold calc_launch_velocities_with_wind
    exact (List.mergeSort_perm _ leVelAngle).nodup_iff.mpr hnd
  exact (hnd'.imp (fun hne hfields => hne (hit_eq_of_fields hfields.1 hfields.2))).chain'

/-! ### Result aggregation (src/main.rs) -/

/-- `SHOW_MAX_HITS` from src/main.rs line 28. -/
def SHOW_MAX_HITS : ℕ := 5

/-- Velocity comparison used by `print_hits` (src/main.rs line 251) and
`into_angle_categories` (line 273). -/
def leVel (h₁ h₂ : Hit) : Bool :=
  decide (h₁.velocity ≤ h₂.velocity)

/-- `sorted_hits` of `print_hits` (src/main.rs lines 240-244): the input
re-sorted ascending by angle, ties broken by ascending velocity. -/
def sortedHits (hits : List Hit) : List Hit :=
  hits.mergeSort leAngleVel

/-- The "Top 5 Best" row of `print_hits` (src/main.rs lines 245-247). -/
def bestHits (hits : List Hit) : List Hit :=
  (sortedHits hits).take SHOW_MAX_HITS

/-- The bucket key of `into_angle_categories` (src/main.rs line 269):
`(angle as f64 / 10.0).floor() as i32 * 10` (exact in `f64` for `i32`
angles, so the rational embedding is faithful). -/
def bucketOf (angle : ℤ) : ℤ :=
  ⌊(angle : ℚ) / 10⌋ * 10

/-- The entries pushed into one bucket's `Vec`, in input order
(src/main.rs line 270). -/
def bucketEntries (hits : List Hit) (k : ℤ) : List Hit :=
  hits.filter (fun h => decide (bucketOf h.angle = k))

/-- The ascending key sequence of the `BTreeMap` of `into_angle_categories`. -/
def bucketKeys (hits : List Hit) : List ℤ :=
  ((hits.map (fun h => bucketOf h.angle)).dedup).mergeSort (fun a b => decide (a ≤ b))

/-- The per-bucket transform of `into_angle_categories` (src/main.rs lines
272-277): sort ascending by velocity (stable, as Rust `sort_by`) and truncate
to the first `SHOW_MAX_HITS` entries. -/
def truncateBucket (l : List Hit) : List Hit :=
  (l.mergeSort leVel).take SHOW_MAX_HITS

/-- `into_angle_categories` (src/main.rs lines 265-279): group by bucket key,
sort each bucket by velocity, truncate to 5, emit in ascending key order. -/
def into_angle_categories (hits : List Hit) : List (ℤ × List Hit) :=
  (bucketKeys hits).map (fun k => (k, truncateBucket (bucketEntries hits k)))

/-- The bucket rows as printed by `print_hits` (src/main.rs lines 248-253):
the categories of the angle-sorted hits, each re-sorted by velocity before
formatting. -/
def printedBuckets (hits : List Hit) : List (ℤ × List Hit) :=
  (into_angle_categories (sortedHits hits)).map (fun p => (p.1, p.2.mergeSort leVel))

theorem leVel_trans (a b c : Hit) (h₁ : leVel a b = true) (h₂ : leVel b c = true) :
    leVel a c = true := by
  simp only [leVel, decide_eq_true_eq] at h₁ h₂ ⊢
  omega

theorem leVel_total (a b : Hit) : (leVel a b || leVel b a) = true := by
  simp only [leVel, Bool.or_eq_true, decide_eq_true_eq]
  omega

theorem leAngleVel_trans (a b c : Hit) (h₁ : leAngleVel a b = true)
    (h₂ : leAngleVel b c = true) : leAngleVel a c = true := by
  simp only [leAngleVel, Bool.or_eq_true, Bool.and_eq_true, decide_eq_true_eq] at h₁ h₂ ⊢
  omega

theorem leAngleVel_total (a b : Hit) : (leAngleVel a b || leAngleVel b a) = true := by
  simp only [leAngleVel, Bool.or_eq_true, Bool.and_eq_true, decide_eq_true_eq]
  omega

theorem intLe_trans (a b c : ℤ) (h₁ : decide (a ≤ b) = true) (h₂ : decide (b ≤ c) = true) :
    decide (a ≤ c) = true := by
  simp only [decide_eq_true_eq] at h₁ h₂ ⊢
  omega

theorem intLe_total (a b : ℤ) : (decide (a ≤ b) || decide (b ≤ a)) = true := by
  simp only [Bool.or_eq_true, decide_eq_true_eq]
  omega

/-- C4: the aggregator's bucket key realises floor division by 10 (asymmetric
around zero for negative angles), with the spec's sample values. -/
theorem bucket_key_floor_law :
    (∀ a : ℤ, bucketOf a = Int.fdiv a 10 * 10) ∧
      bucketOf 15 = 10 ∧ bucketOf (-5) = -10 ∧ bucketOf (-15) = -20 ∧ bucketOf 0 = 0 := by
  have key : ∀ a : ℤ, bucketOf a = Int.fdiv a 10 * 10 := by
    intro a
    unfold bucketOf
    rw [show (10 : ℚ) = ((10 : ℕ) : ℚ) by norm_num, Rat.floor_intCast_div_natCast,
      Int.fdiv_eq_ediv a (by norm_num)]
    norm_num
  refine ⟨key, ?_, ?_, ?_, ?_⟩ <;> rw [key] <;> decide

theorem sorted_keys (l : List ℤ) :
    List.Sorted (· < ·) (l.dedup.mergeSort (fun a b => decide (a ≤ b))) := by
  have hle : List.Pairwise (fun a b : ℤ => decide (a ≤ b) = true)
      (l.dedup.mergeSort (fun a b => decide (a ≤ b))) :=
    List.sorted_mergeSort intLe_trans intLe_total l.dedup
  have hnd : (l.dedup.mergeSort (fun a b => decide (a ≤ b))).Nodup :=
    (List.mergeSort_perm _ _).nodup_iff.mpr (List.nodup_dedup l)
  refine ((hnd.and hle).imp ?_)
  intro a b hab
  have h1 := hab.1
  have h2 := hab.2
  simp only [decide_eq_true_eq] at h2
  omega

/-- C5: every printed bucket row has at most `SHOW_MAX_HITS` entries and is
sorted ascending by velocity; bucket keys are emitted in strictly ascending
order; the "best" row has at most `SHOW_MAX_HITS` entries and is exactly a
prefix of the full hit set re-sorted ascending by angle with ties broken by
ascending velocity. -/
theorem aggregation_bounded_and_sorted (hits : List Hit) :
    List.Forall
      (fun p : ℤ × List Hit =>
        p.2.length ≤ SHOW_MAX_HITS ∧
          List.Sorted (fun x y : Hit => x.velocity ≤ y.velocity) p.2)
      (printedBuckets hits) ∧
    List.Sorted (· < ·) ((printedBuckets hits).map Prod.fst) ∧
    (bestHits hits).length ≤ SHOW_MAX_HITS ∧
    bestHits hits <+: sortedHits hits ∧
    (sortedHits hits).Perm hits ∧
    List.Sorted
      (fun x y : Hit => x.angle < y.angle ∨ (x.angle = y.angle ∧ x.velocity ≤ y.velocity))
      (sortedHits hits) := by
  refine ⟨?_, ?_, ?_, ?_, ?_, ?_⟩
  · refine List.forall_iff_forall_mem.mpr ?_
    intro p hp
    unfold printedBuckets at hp
    rcases List.mem_map.mp hp with ⟨q, hq, rfl⟩
    unfold into_angle_categories at hq
    rcases List.mem_map.mp hq with ⟨k, _, rfl⟩
    constructor
    · rw [List.length_mergeSort]
      unfold truncateBucket
      rw [List.length_take]
      exact min_le_left _ _
    · refine (List.sorted_mergeSort leVel_trans leVel_total _).imp ?_
      intro a b hab
      simpa [leVel] using hab
  · have : (printedBuckets hits).map Prod.fst = bucketKeys (sortedHits hits) := by
      unfold printedBuckets into_angle_categories
      rw [List.map_map, List.map_map]
      simp only [Function.comp_def]
      exact List.map_id _
    rw [this]
    exact sorted_keys _
  · unfold bestHits
    rw [List.length_take]
    exact min_le_left _ _
  · exact List.take_prefix _ _
  · exact List.mergeSort_perm hits leAngleVel
  · refine (List.sorted_mergeSort leAngleVel_trans leAngleVel_total hits).imp ?_
    intro a b hab
    simpa [leAngleVel, Bool.or_eq_true, Bool.and_eq_true, decide_eq_true_eq] using hab

/-! ### Coordinate translation (src/math.rs lines 70-106) -/

/-- `Rect` from src/platform/mod.rs: client-area width and height (`i32`). -/
structure Rect where
  width : ℤ
  height : ℤ

/-- `Cursor` from src/platform/mod.rs: a screen position (`i32`, origin
top-left, y growing downward). -/
structure Cursor where
  x : ℤ
  y : ℤ

/-- `scale_position` (src/math.rs lines 91-106): scale a cursor position to
the base resolution 1768x992 and flip the y axis to a bottom-left origin. -/
def scale_position (rect : Rect) (cursor : Cursor) : ℚ × ℚ :=
  ((cursor.x : ℚ) * (1768 / (rect.width : ℚ)),
    ((rect.height : ℚ) - (cursor.y : ℚ)) * (992 / (rect.height : ℚ)))

/-- `translate_target_position_relativ_to_origin` (src/math.rs lines 73-87):
the target position relative to the source, in scaled pixels, x right, y up. -/
def translate_target_position_relativ_to_origin (rect : Rect) (src tgt : Cursor) : ℚ × ℚ :=
  ((scale_position rect tgt).1 - (scale_position rect src).1,
    (scale_position rect tgt).2 - (scale_position rect src).2)

/-- The translation only sees the per-axis coordinate differences. -/
theorem translate_normal_form (rect : Rect) (src tgt : Cursor) :
    translate_target_position_relativ_to_origin rect src tgt =
      (((tgt.x - src.x : ℤ) : ℚ) * (1768 / (rect.width : ℚ)),
        ((src.y - tgt.y : ℤ) : ℚ) * (992 / (rect.height : ℚ))) := by
  unfold translate_target_position_relativ_to_origin scale_position
  refine Prod.ext ?_ ?_ <;> push_cast <;> ring

/-- C6: translating a point relative to itself yields exactly (0, 0), for
every window extent with positive width and height. -/
theorem translate_self_eq_zero (rect : Rect) (p : Cursor) (hw : 0 < rect.width)
    (hh : 0 < rect.height) :
    translate_target_position_relativ_to_origin rect p p = (0, 0) := by
  rw [translate_normal_form]
  simp

/-- Witness for `translate_self_eq_zero` at extent 100x50 and point (5, 7). -/
theorem translate_self_eq_zero_witness :
    0 < (100 : ℤ) ∧ 0 < (50 : ℤ) ∧
      translate_target_position_relativ_to_origin ⟨100, 50⟩ ⟨5, 7⟩ ⟨5, 7⟩ = (0, 0) :=
  ⟨by decide, by decide,
    translate_self_eq_zero ⟨100, 50⟩ ⟨5, 7⟩ (by decide) (by decide)⟩

/-- C7: at extent 884x496 (half the base resolution) the displacement from
(0,0) to (100,100) translates to exactly (200, -200): both axes scale by 2
and the y axis is flipped. -/
theorem translate_half_resolution :
    translate_target_position_relativ_to_origin ⟨884, 496⟩ ⟨0, 0⟩ ⟨100, 100⟩ = (200, -200) := by
  rw [translate_normal_form]
  norm_num

/-! ### Bit-level model of the f64 translation path

The exact-rational `translate_target_position_relativ_to_origin` above drops
the per-operation rounding the `f64` source performs. The invariances of C10
are sensitive to that rounding, so they are settled against the model below:
`rne` is IEEE-754 binary64 round-to-nearest, ties to even, for values in the
normal range (the exponent is unbounded and overflow/subnormal handling is
omitted; every value reached in this file is far inside the normal range,
where binary64 rounding coincides with this function), and `translateF64`
applies one correctly-rounded operation per arithmetic operation of
`scale_position`/`translate_target_position_relativ_to_origin`
(src/math.rs lines 73-106); `i32` to `f64` conversions are exact. -/

/-- Round a rational scaled into `[2^52, 2^53)` to an integer significand:
to the nearest integer, ties to the even neighbour. -/
def roundHalfEven (q : ℚ) : ℤ :=
  if q - ⌊q⌋ < 1 / 2 then ⌊q⌋
  else if 1 / 2 < q - ⌊q⌋ then ⌊q⌋ + 1
  else if Even ⌊q⌋ then ⌊q⌋ else ⌊q⌋ + 1

/-- Binary64 round-to-nearest-even for values in the normal range: scale the
magnitude by `2^(52 - ⌊log2 |x|⌋)` into `[2^52, 2^53)`, round the significand
half-to-even, and scale back. -/
def rne (x : ℚ) : ℚ :=
  if x = 0 then 0
  else if x < 0 then
    -((roundHalfEven (-x * (2 : ℚ) ^ ((52 : ℤ) - Int.log 2 (-x))) : ℚ) *
      (2 : ℚ) ^ (Int.log 2 (-x) - 52))
  else
    (roundHalfEven (x * (2 : ℚ) ^ ((52 : ℤ) - Int.log 2 x)) : ℚ) *
      (2 : ℚ) ^ (Int.log 2 x - 52)

/-- The x part of `scale_position` as evaluated in `f64`: one rounding for
the division `1768 / width` and one for the product. -/
def scaleF64x (w x : ℤ) : ℚ :=
  rne ((x : ℚ) * rne (1768 / (w : ℚ)))

/-- The y part of `scale_position` as evaluated in `f64`: one rounding each
for `height - y`, for `992 / height`, and for their product. -/
def scaleF64y (h y : ℤ) : ℚ :=
  rne (rne ((h : ℚ) - (y : ℚ)) * rne (992 / (h : ℚ)))

/-- `translate_target_position_relativ_to_origin` as evaluated in `f64`: the
scaled coordinates of both points, with one rounding per final subtraction. -/
def translateF64 (rect : Rect) (src tgt : Cursor) : ℚ × ℚ :=
  (rne (scaleF64x rect.width tgt.x - scaleF64x rect.width src.x),
    rne (scaleF64y rect.height tgt.y - scaleF64y rect.height src.y))

theorem intLog_eq {x : ℚ} {e : ℤ} (hx : 0 < x) (h1 : (2 : ℚ) ^ e ≤ x)
    (h2 : x < (2 : ℚ) ^ (e + 1)) : Int.log 2 x = e := by
  have hb : (1 : ℕ) < 2 := by norm_num
  have hcast : ((2 : ℕ) : ℚ) = (2 : ℚ) := by norm_num
  have hle : e ≤ Int.log 2 x := by
    rw [← Int.zpow_le_iff_le_log hb hx, hcast]
    exact h1
  have hlt : Int.log 2 x < e + 1 := by
    rw [← Int.lt_zpow_iff_log_lt hb hx, hcast]
    exact h2
  omega

theorem rne_zero : rne 0 = 0 := by
  simp [rne]

theorem rne_of_pos {x : ℚ} (hx : 0 < x) :
    rne x = (roundHalfEven (x * (2 : ℚ) ^ ((52 : ℤ) - Int.log 2 x)) : ℚ) *
      (2 : ℚ) ^ (Int.log 2 x - 52) := by
  unfold rne
  rw [if_neg (ne_of_gt hx), if_neg (not_lt.mpr (le_of_lt hx))]

theorem roundHalfEven_intCast (n : ℤ) : roundHalfEven ((n : ℤ) : ℚ) = n := by
  unfold roundHalfEven
  rw [Int.floor_intCast]
  rw [if_pos (by norm_num)]

/-- A positive value whose scaled significand is an integer is left fixed. -/
theorem rne_fixed {x : ℚ} {e : ℤ} (n : ℤ) (hx : 0 < x) (hlog : Int.log 2 x = e)
    (hq : x * (2 : ℚ) ^ ((52 : ℤ) - e) = (n : ℚ)) : rne x = x := by
  rw [rne_of_pos hx, hlog, hq, roundHalfEven_intCast]
  calc ((n : ℤ) : ℚ) * (2 : ℚ) ^ (e - 52)
      = x * (2 : ℚ) ^ ((52 : ℤ) - e) * (2 : ℚ) ^ (e - 52) := by rw [hq]
    _ = x * (2 : ℚ) ^ ((52 : ℤ) - e + (e - 52)) := by
        rw [mul_assoc, ← zpow_add₀ (two_ne_zero : (2 : ℚ) ≠ 0)]
    _ = x := by
        rw [show (52 : ℤ) - e + (e - 52) = 0 by ring, zpow_zero, mul_one]

/-- A positive value whose scaled significand has fractional part above one
half rounds up to the next significand. -/
theorem rne_eval_up {x : ℚ} {e n : ℤ} (hx : 0 < x) (hlog : Int.log 2 x = e)
    (hfl : ⌊x * (2 : ℚ) ^ ((52 : ℤ) - e)⌋ = n)
    (hfr : 1 / 2 < x * (2 : ℚ) ^ ((52 : ℤ) - e) - (n : ℚ)) :
    rne x = ((n + 1 : ℤ) : ℚ) * (2 : ℚ) ^ (e - 52) := by
  rw [rne_of_pos hx, hlog]
  unfold roundHalfEven
  rw [hfl]
  rw [if_neg (by linarith), if_pos (by linarith)]

/-- Binary64 rounding commutes with negation (the rounding is an odd
function, as ties-to-even is sign-symmetric). -/
theorem rne_neg (x : ℚ) : rne (-x) = -rne x := by
  rcases lt_trichotomy x 0 with hneg | hzero | hpos
  · have hpos' : 0 < -x := by linarith
    rw [rne_of_pos hpos']
    unfold rne
    rw [if_neg (ne_of_lt hneg), if_pos hneg, neg_neg]
  · rw [hzero]
    simp [rne]
  · unfold rne
    rw [if_neg (by intro h; linarith [neg_eq_zero.mp h] : ¬(-x = 0)),
      if_pos (by linarith : -x < 0), neg_neg,
      if_neg (ne_of_gt hpos), if_neg (not_lt.mpr (le_of_lt hpos))]

/-- `fl(1768/7)`: the scaled significand of `1768/7` is `62205969853054976/7`
with fractional part `4/7 > 1/2`, so it rounds up to the odd significand
`8886567121864997`. -/
theorem rne_div7 : rne (1768 / 7) = 8886567121864997 / 35184372088832 := by
  have hlog : Int.log 2 ((1768 : ℚ) / 7) = 7 :=
    intLog_eq (by norm_num) (by norm_num) (by norm_num)
  have hkey : (1768 / 7 : ℚ) * (2 : ℚ) ^ ((52 : ℤ) - 7) = 62205969853054976 / 7 := by
    norm_num
  have hfl : ⌊(1768 / 7 : ℚ) * (2 : ℚ) ^ ((52 : ℤ) - 7)⌋ = 8886567121864996 := by
    rw [hkey]
    norm_num
  have hfr : 1 / 2 <
      (1768 / 7 : ℚ) * (2 : ℚ) ^ ((52 : ℤ) - 7) - ((8886567121864996 : ℤ) : ℚ) := by
    rw [hkey]
    norm_num
  rw [rne_eval_up (by norm_num) hlog hfl hfr]
  norm_num

/-- `fl(1768/7)` is exactly representable, hence fixed by rounding. -/
theorem rne_s_fixed :
    rne (8886567121864997 / 35184372088832) = 8886567121864997 / 35184372088832 := by
  have hlog : Int.log 2 ((8886567121864997 : ℚ) / 35184372088832) = 7 :=
    intLog_eq (by norm_num) (by norm_num) (by norm_num)
  exact rne_fixed 8886567121864997 (by norm_num) hlog (by norm_num)

/-- `fl(3 · fl(1768/7))`: the scaled significand `26659701365594991/4` has
fractional part `3/4 > 1/2` (the significand of `fl(1768/7)` is odd), so the
product rounds up — `3 · fl(1768/7)` is not representable. -/
theorem rne_three_s :
    rne (3 * (8886567121864997 / 35184372088832)) = 6664925341398748 / 8796093022208 := by
  have harg : (3 * (8886567121864997 / 35184372088832) : ℚ) =
      26659701365594991 / 35184372088832 := by norm_num
  rw [harg]
  have hlog : Int.log 2 ((26659701365594991 : ℚ) / 35184372088832) = 9 :=
    intLog_eq (by norm_num) (by norm_num) (by norm_num)
  have hkey : ((26659701365594991 : ℚ) / 35184372088832) * (2 : ℚ) ^ ((52 : ℤ) - 9) =
      26659701365594991 / 4 := by norm_num
  have hfl : ⌊((26659701365594991 : ℚ) / 35184372088832) * (2 : ℚ) ^ ((52 : ℤ) - 9)⌋ =
      6664925341398747 := by
    rw [hkey]
    norm_num
  have hfr : 1 / 2 < ((26659701365594991 : ℚ) / 35184372088832) * (2 : ℚ) ^ ((52 : ℤ) - 9) -
      ((6664925341398747 : ℤ) : ℚ) := by
    rw [hkey]
    norm_num
  rw [rne_eval_up (by norm_num) hlog hfl hfr]
  norm_num

/-- `fl(4 · fl(1768/7))` is exact: multiplying by four shifts the exponent. -/
theorem rne_four_s :
    rne (4 * (8886567121864997 / 35184372088832)) = 8886567121864997 / 8796093022208 := by
  have harg : (4 * (8886567121864997 / 35184372088832) : ℚ) =
      8886567121864997 / 8796093022208 := by norm_num
  rw [harg]
  have hlog : Int.log 2 ((8886567121864997 : ℚ) / 8796093022208) = 9 :=
    intLog_eq (by norm_num) (by norm_num) (by norm_num)
  exact rne_fixed 8886567121864997 (by norm_num) hlog (by norm_num)

/-- The final subtraction `fl(4s) - fl(3s)` is exact (Sterbenz) and equals
one unit below `fl(1768/7)` in the last place. -/
theorem rne_x_diff :
    rne (8886567121864997 / 8796093022208 - 6664925341398748 / 8796093022208) =
      2221641780466249 / 8796093022208 := by
  have harg : (8886567121864997 / 8796093022208 - 6664925341398748 / 8796093022208 : ℚ) =
      2221641780466249 / 8796093022208 := by norm_num
  rw [harg]
  have hlog : Int.log 2 ((2221641780466249 : ℚ) / 8796093022208) = 7 :=
    intLog_eq (by norm_num) (by norm_num) (by norm_num)
  exact rne_fixed 8886567121864996 (by norm_num) hlog (by norm_num)

theorem rne_one : rne 1 = 1 := by
  have hlog : Int.log 2 (1 : ℚ) = 0 :=
    intLog_eq (by norm_num) (by norm_num) (by norm_num)
  exact rne_fixed 4503599627370496 (by norm_num) hlog (by norm_num)

theorem rne_992 : rne 992 = 992 := by
  have hlog : Int.log 2 (992 : ℚ) = 9 :=
    intLog_eq (by norm_num) (by norm_num) (by norm_num)
  exact rne_fixed 8725724278030336 (by norm_num) hlog (by norm_num)

/-- C10 counterexample: in the program's `f64` arithmetic the translation
does not depend only on the per-axis differences, and is not invariant under
a common offset: at extent width 7, the pairs (0,0)→(1,0) and (3,0)→(4,0)
have the same per-axis differences (the second is the first offset by 3),
but `fl(3·scalex)` rounds while `fl(1·scalex)` and `fl(4·scalex)` are exact,
so the two x components differ by one unit in the last place. -/
theorem translateF64_breaks_difference_dependence :
    translateF64 ⟨7, 1⟩ ⟨0, 0⟩ ⟨1, 0⟩ ≠ translateF64 ⟨7, 1⟩ ⟨3, 0⟩ ⟨4, 0⟩ := by
  have hy : scaleF64y 1 0 = 992 := by
    unfold scaleF64y
    rw [show ((1 : ℤ) : ℚ) - ((0 : ℤ) : ℚ) = 1 by norm_num,
      show (992 / ((1 : ℤ) : ℚ) : ℚ) = 992 by norm_num, rne_one, rne_992, one_mul, rne_992]
  have h1 : translateF64 ⟨7, 1⟩ ⟨0, 0⟩ ⟨1, 0⟩ =
      (8886567121864997 / 35184372088832, 0) := by
    unfold translateF64
    rw [hy, sub_self, rne_zero]
    unfold scaleF64x
    rw [show (1768 / ((7 : ℤ) : ℚ) : ℚ) = 1768 / 7 by norm_num, rne_div7,
      show (((0 : ℤ) : ℚ) * (8886567121864997 / 35184372088832) : ℚ) = 0 by norm_num,
      rne_zero,
      show (((1 : ℤ) : ℚ) * (8886567121864997 / 35184372088832) : ℚ) =
        8886567121864997 / 35184372088832 by norm_num,
      rne_s_fixed, sub_zero, rne_s_fixed]
  have h2 : translateF64 ⟨7, 1⟩ ⟨3, 0⟩ ⟨4, 0⟩ =
      (2221641780466249 / 8796093022208, 0) := by
    unfold translateF64
    rw [hy, sub_self, rne_zero]
    unfold scaleF64x
    rw [show (1768 / ((7 : ℤ) : ℚ) : ℚ) = 1768 / 7 by norm_num, rne_div7,
      show (((3 : ℤ) : ℚ) * (8886567121864997 / 35184372088832) : ℚ) =
        3 * (8886567121864997 / 35184372088832) by norm_num,
      rne_three_s,
      show (((4 : ℤ) : ℚ) * (8886567121864997 / 35184372088832) : ℚ) =
        4 * (8886567121864997 / 35184372088832) by norm_num,
      rne_four_s, rne_x_diff]
  rw [h1, h2]
  intro hcontra
  have hfst := congrArg Prod.fst hcontra
  norm_num at hfst

/-- C10 (amended): for every extent with positive width and height, swapping
the source and target points negates both components of the `f64`-evaluated
translation exactly — each point's scaled coordinates are computed
identically in both calls and binary64 rounding commutes with the negated
final subtraction. The stronger invariances of the original claim
(dependence only on the per-axis differences, invariance under a common
offset) fail in `f64`, as `translateF64_breaks_difference_dependence`
shows. -/
theorem translateF64_swap_negates (rect : Rect) (src tgt : Cursor)
    (hw : 0 < rect.width) (hh : 0 < rect.height) :
    translateF64 rect tgt src =
      (-(translateF64 rect src tgt).1, -(translateF64 rect src tgt).2) := by
  unfold translateF64
  refine Prod.ext ?_ ?_
  · show rne (scaleF64x rect.width src.x - scaleF64x rect.width tgt.x) = _
    rw [show scaleF64x rect.width src.x - scaleF64x rect.width tgt.x =
        -(scaleF64x rect.width tgt.x - scaleF64x rect.width src.x) by ring, rne_neg]
  · show rne (scaleF64y rect.height src.y - scaleF64y rect.height tgt.y) = _
    rw [show scaleF64y rect.height src.y - scaleF64y rect.height tgt.y =
        -(scaleF64y rect.height tgt.y - scaleF64y rect.height src.y) by ring, rne_neg]

/-- Witness for `translateF64_swap_negates` at extent 100x50 and the points
(0,0) and (3,4). -/
theorem translateF64_swap_negates_witness :
    0 < (100 : ℤ) ∧ 0 < (50 : ℤ) ∧
      translateF64 ⟨100, 50⟩ ⟨3, 4⟩ ⟨0, 0⟩ =
        (-(translateF64 ⟨100, 50⟩ ⟨0, 0⟩ ⟨3, 4⟩).1,
          -(translateF64 ⟨100, 50⟩ ⟨0, 0⟩ ⟨3, 4⟩).2) :=
  ⟨by decide, by decide,
    translateF64_swap_negates ⟨100, 50⟩ ⟨0, 0⟩ ⟨3, 4⟩ (by decide) (by decide)⟩

/-! ### Trajectory simulation (src/math.rs lines 109-173)

The simulator's trigonometry (`angle_rad.cos()`, `angle_rad.sin()`) is
platform libm dependent; the embedding takes the two values as the
parameters `cosv` and `sinv`. All other constants are the source's decimal
literals as exact rationals. -/

/-- `BASE_METER_2_PIXEL = 2.271` (src/math.rs line 17). -/
def BASE_METER_2_PIXEL : ℚ := 2271 / 1000

/-- `GRAVITY_MPSS = 9.81` (src/math.rs line 20). -/
def GRAVITY_MPSS : ℚ := 981 / 100

/-- `SIMULATION_DT = 0.01` (src/math.rs line 24). -/
def SIMULATION_DT : ℚ := 1 / 100

/-- `SIMULATION_MAX_STEPS = 2000` (src/math.rs line 26). -/
def SIMULATION_MAX_STEPS : ℕ := 2000

/-- `HIT_TOLERANCE_PX = 3.0` (src/math.rs line 28). -/
def HIT_TOLERANCE_PX : ℚ := 3

/-- `WIND_SCALING_FACTOR = 0.0125` (src/math.rs line 31). -/
def WIND_SCALING_FACTOR : ℚ := 1 / 80

/-- `TERMINATION_Y_BUFFER_PX = 10.0` (src/math.rs line 33). -/
def TERMINATION_Y_BUFFER_PX : ℚ := 10

/-- The mutable state of `simulate_trajectory`: velocity and position
components in meters (per second). -/
structure SimState where
  velx : ℚ
  vely : ℚ
  posx : ℚ
  posy : ℚ

/-- Rust `f64::signum` for finite non-NaN inputs: `1` for positive or `+0.0`,
`-1` for negative. -/
def f64Signum (x : ℚ) : ℚ :=
  if 0 ≤ x then 1 else -1

/-- `direction_sign` (src/math.rs line 132): `1.0` when the target x
displacement is zero, otherwise its signum. -/
def directionSign (txm : ℚ) : ℚ :=
  if txm = 0 then 1 else f64Signum txm

/-- The initial state of `simulate_trajectory` (src/math.rs lines 127-143):
`vel_x = v·cos(angle)·direction_sign`, `vel_y = v·sin(angle)`, position at
the origin. -/
def initialState (cosv sinv v txm : ℚ) : SimState :=
  { velx := v * cosv * directionSign txm
    vely := v * sinv
    posx := 0
    posy := 0 }

/-- One integration step (src/math.rs lines 147-153): semi-implicit Euler —
velocities are updated first, then positions use the new velocities. -/
def simStep (windAccel : ℚ) (s : SimState) : SimState :=
  { velx := s.velx + windAccel * SIMULATION_DT
    vely := s.vely - GRAVITY_MPSS * SIMULATION_DT
    posx := s.posx + (s.velx + windAccel * SIMULATION_DT) * SIMULATION_DT
    posy := s.posy + (s.vely - GRAVITY_MPSS * SIMULATION_DT) * SIMULATION_DT }

/-- The hit check (src/math.rs lines 155-161): squared distance to the target
strictly below the squared tolerance (both in meters). -/
def hitTest (txm tym : ℚ) (s : SimState) : Bool :=
  decide ((s.posx - txm) ^ 2 + (s.posy - tym) ^ 2 <
    (HIT_TOLERANCE_PX / BASE_METER_2_PIXEL) ^ 2)

/-- The early-termination check (src/math.rs lines 163-168): fallen below the
target minus the buffer while still moving downward. -/
def termTest (tym : ℚ) (s : SimState) : Bool :=
  decide (s.posy < tym - TERMINATION_Y_BUFFER_PX / BASE_METER_2_PIXEL ∧ s.vely < 0)

/-- The stepping loop of `simulate_trajectory` (src/math.rs lines 146-169),
with an explicit fuel equal to the remaining step budget. Returns the
simulation outcome together with the number of integration steps executed. -/
def simRun (windAccel txm tym : ℚ) : ℕ → SimState → Bool × ℕ
  | 0, _ => (false, 0)
  | n + 1, s =>
    if hitTest txm tym (simStep windAccel s) then (true, 1)
    else if termTest tym (simStep windAccel s) then (false, 1)
    else ((simRun windAccel txm tym n (simStep windAccel s)).1,
      (simRun windAccel txm tym n (simStep windAccel s)).2 + 1)

/-- `simulate_trajectory` (src/math.rs lines 111-173), with the angle's
cosine and sine as the abstracted parameters `cosv`, `sinv`. -/
def simulate_trajectory (cosv sinv v txpx typx wind : ℚ) : Bool :=
  (simRun (wind * WIND_SCALING_FACTOR) (txpx / BASE_METER_2_PIXEL) (typx / BASE_METER_2_PIXEL)
    SIMULATION_MAX_STEPS (initialState cosv sinv v (txpx / BASE_METER_2_PIXEL))).1

/-- `noFire windAccel txm tym n s` states (as a single pass) that neither the
hit check nor the termination check fires during `n` steps from `s`. -/
def noFire (windAccel txm tym : ℚ) : ℕ → SimState → Bool
  | 0, _ => true
  | n + 1, s =>
    !hitTest txm tym (simStep windAccel s) &&
      (!termTest tym (simStep windAccel s) && noFire windAccel txm tym n (simStep windAccel s))

theorem simRun_steps_le (windAccel txm tym : ℚ) :
    ∀ (n : ℕ) (s : SimState), (simRun windAccel txm tym n s).2 ≤ n := by
  intro n
  induction n with
  | zero => intro s; simp [simRun]
  | succ n ih =>
    intro s
    unfold simRun
    split
    · simp
    · split
      · simp
      · simpa using ih (simStep windAccel s)

theorem simRun_false_of_noFire (windAccel txm tym : ℚ) :
    ∀ (n : ℕ) (s : SimState), noFire windAccel txm tym n s = true →
      (simRun windAccel txm tym n s).1 = false := by
  intro n
  induction n with
  | zero => intro s _; simp [simRun]
  | succ n ih =>
    intro s hnf
    unfold noFire at hnf
    rw [Bool.and_eq_true, Bool.and_eq_true, Bool.not_eq_true'] at hnf
    obtain ⟨hhit, hterm, hrest⟩ := hnf
    rw [Bool.not_eq_true'] at hterm
    unfold simRun
    rw [hhit, hterm]
    simpa using ih (simStep windAccel s) hrest

/-- C8: the simulation loop executes at most `SIMULATION_MAX_STEPS = 2000`
integration steps, and when neither the hit check nor the early-termination
check fires within that budget, `simulate_trajectory` reports a miss
(`false`). -/
theorem simulation_bounded_and_default_miss (cosv sinv v txpx typx wind : ℚ)
    (hnf : noFire (wind * WIND_SCALING_FACTOR) (txpx / BASE_METER_2_PIXEL)
      (typx / BASE_METER_2_PIXEL) SIMULATION_MAX_STEPS
      (initialState cosv sinv v (txpx / BASE_METER_2_PIXEL)) = true) :
    (simRun (wind * WIND_SCALING_FACTOR) (txpx / BASE_METER_2_PIXEL)
        (typx / BASE_METER_2_PIXEL) SIMULATION_MAX_STEPS
        (initialState cosv sinv v (txpx / BASE_METER_2_PIXEL))).2 ≤ SIMULATION_MAX_STEPS ∧
      simulate_trajectory cosv sinv v txpx typx wind = false := by
  constructor
  · exact simRun_steps_le _ _ _ _ _
  · exact simRun_false_of_noFire _ _ _ _ _ hnf

/-- On the far-below target used by the witness, no check ever fires: the
projectile free-falls from rest and cannot reach either the distant target or
the depth `-10^6` within the step budget. -/
theorem noFire_far :
    ∀ (n : ℕ) (s : SimState), s.velx = 0 → s.posx = 0 →
      -300 + (n : ℚ) * (981 / 10000) ≤ s.vely → -990000 + (n : ℚ) * 3 ≤ s.posy →
      noFire 0 1000000 (-1000000) n s = true := by
  intro n
  induction n with
  | zero => intro s _ _ _ _; rfl
  | succ n ih =>
    intro s hvx hpx hvy hpy
    have hvx' : (simStep 0 s).velx = 0 := by
      simp [simStep, hvx]
    have hpx' : (simStep 0 s).posx = 0 := by
      simp [simStep, hpx, hvx]
    have hvy' : (simStep 0 s).vely = s.vely - 981 / 10000 := by
      simp [simStep, GRAVITY_MPSS, SIMULATION_DT]
      ring
    have hpy' : (simStep 0 s).posy = s.posy + (s.vely - 981 / 10000) * (1 / 100) := by
      simp [simStep, GRAVITY_MPSS, SIMULATION_DT]
      ring
    have hcast : ((n + 1 : ℕ) : ℚ) = (n : ℚ) + 1 := by push_cast; ring
    rw [hcast] at hvy hpy
    have hvybound : -300 + (n : ℚ) * (981 / 10000) ≤ (simStep 0 s).vely := by
      rw [hvy']
      linarith
    have hvy300 : (-300 : ℚ) ≤ (simStep 0 s).vely := by
      have hn0 : (0 : ℚ) ≤ (n : ℚ) := by positivity
      nlinarith
    have hpybound : -990000 + (n : ℚ) * 3 ≤ (simStep 0 s).posy := by
      rw [hpy']
      have : (simStep 0 s).vely = s.vely - 981 / 10000 := hvy'
      nlinarith [hvy300, hvy']
    have hpy990 : (-990000 : ℚ) ≤ (simStep 0 s).posy := by
      have hn0 : (0 : ℚ) ≤ (n : ℚ) := by positivity
      nlinarith
    have hhit : hitTest 1000000 (-1000000) (simStep 0 s) = false := by
      unfold hitTest
      rw [decide_eq_false_iff_not]
      intro hlt
      rw [hpx'] at hlt
      have htol : ((HIT_TOLERANCE_PX / BASE_METER_2_PIXEL) ^ 2 : ℚ) < 2 := by
        norm_num [HIT_TOLERANCE_PX, BASE_METER_2_PIXEL]
      nlinarith [sq_nonneg ((simStep 0 s).posy - -1000000)]
    have hterm : termTest (-1000000) (simStep 0 s) = false := by
      unfold termTest
      rw [decide_eq_false_iff_not]
      intro hand
      have hbuf : (TERMINATION_Y_BUFFER_PX / BASE_METER_2_PIXEL : ℚ) < 5 := by
        norm_num [TERMINATION_Y_BUFFER_PX, BASE_METER_2_PIXEL]
      have hbuf0 : (0 : ℚ) ≤ TERMINATION_Y_BUFFER_PX / BASE_METER_2_PIXEL := by
        norm_num [TERMINATION_Y_BUFFER_PX, BASE_METER_2_PIXEL]
      have := hand.1
      linarith
    unfold noFire
    rw [hhit, hterm]
    simpa using ih (simStep 0 s) hvx' hpx' hvybound hpybound

/-- Witness for `simulation_bounded_and_default_miss`: a stationary launch
(zero speed, zero trig components, zero wind) at a target displaced by
`2271000` pixels right and `2271000` pixels down — one million meters — never
fires either check in 2000 steps and is reported as a miss. -/
theorem simulation_bounded_and_default_miss_witness :
    (simRun (0 * WIND_SCALING_FACTOR) ((2271000 : ℚ) / BASE_METER_2_PIXEL)
        ((-2271000 : ℚ) / BASE_METER_2_PIXEL) SIMULATION_MAX_STEPS
        (initialState 0 0 0 ((2271000 : ℚ) / BASE_METER_2_PIXEL))).2 ≤ SIMULATION_MAX_STEPS ∧
      simulate_trajectory 0 0 0 2271000 (-2271000) 0 = false := by
  have harg1 : (0 : ℚ) * WIND_SCALING_FACTOR = 0 := by norm_num
  have harg2 : (2271000 : ℚ) / BASE_METER_2_PIXEL = 1000000 := by
    norm_num [BASE_METER_2_PIXEL]
  have harg3 : (-2271000 : ℚ) / BASE_METER_2_PIXEL = -1000000 := by
    norm_num [BASE_METER_2_PIXEL]
  have hinit : initialState 0 0 0 ((2271000 : ℚ) / BASE_METER_2_PIXEL) =
      ⟨0, 0, 0, 0⟩ := by
    unfold initialState
    norm_num
  refine simulation_bounded_and_default_miss 0 0 0 2271000 (-2271000) 0 ?_
  rw [harg1, hinit, harg2, harg3]
  exact noFire_far 2000 ⟨0, 0, 0, 0⟩ rfl rfl (by norm_num) (by norm_num)

/-- C9: the initial horizontal velocity is `v·cos(angle)` multiplied by the
sign of the target's x displacement in meters (+1 when it is zero), and the
initial vertical velocity is `v·sin(angle)`. -/
theorem initial_velocity_components (cosv sinv v txm : ℚ) :
    (initialState cosv sinv v txm).velx =
        v * cosv * (if 0 < txm then 1 else if txm < 0 then -1 else 1) ∧
      (initialState cosv sinv v txm).vely = v * sinv := by
  constructor
  · show v * cosv * directionSign txm = _
    have hdir : directionSign txm = (if 0 < txm then 1 else if txm < 0 then -1 else 1) := by
      unfold directionSign f64Signum
      rcases lt_trichotomy txm 0 with hneg | hzero | hpos
      · rw [if_neg (by linarith), if_neg (by linarith), if_neg (by linarith), if_pos hneg]
      · rw [if_pos hzero, if_neg (by linarith), if_neg (by linarith)]
      · rw [if_neg (by linarith), if_pos (by linarith), if_pos hpos]
    rw [hdir]
  · rfl

end ShellShock
